import Mathlib

/-!
Verification of the OptChain options-analytics core against its specification.

The scoring and construction engine (iron-condor assembly, credit-spread
screening, LEAPS ranking) is embedded shallowly: monetary quantities are
rationals, fallible constructors return `Except`, and batch builders return
lists.  The Black-Scholes pricing functions from `chain_analysis.py` are
embedded over the reals with the standard-normal CDF written as an explicit
Gaussian integral.  Missing/NaN market fields are represented with `Option`.
-/

namespace OptChain

/-- Spread type tag: put credit spread or call credit spread. -/
inductive SpreadType where
  | PCS
  | CCS
deriving DecidableEq

/-- Side tag for an iron-condor leg. -/
inductive LegSide where
  | put
  | call
deriving DecidableEq

/-- Modelled from the spec: `CreditSpread` record of the missing
`backend/iron_condor.py` (underlying, expiration, spread type, strikes,
per-share credit, short delta, quote stats). -/
structure CreditSpread where
  underlying : String
  expiration : String
  spread_type : SpreadType
  short_strike : ℚ
  long_strike : ℚ
  credit : ℚ
  short_delta : ℚ
  bid_ask_spread : ℚ
  volume : ℕ
  open_interest : ℕ
deriving DecidableEq

/-- Modelled from the spec: spread width = |short_strike − long_strike|. -/
def CreditSpread.width (s : CreditSpread) : ℚ :=
  |s.short_strike - s.long_strike|

/-- Modelled from the spec: a wrapper pairing a `CreditSpread` with its side. -/
structure IronCondorLeg where
  spread : CreditSpread
  side : LegSide
deriving DecidableEq

/-- Modelled from the spec: validating constructor for `IronCondorLeg` in the
missing `backend/iron_condor.py`; a put leg must wrap a PCS and a call leg a
CCS, otherwise construction fails with a value error. -/
def mkIronCondorLeg (spread : CreditSpread) (side : LegSide) :
    Except String IronCondorLeg :=
  match side with
  | LegSide.put =>
      if spread.spread_type = SpreadType.PCS then Except.ok ⟨spread, LegSide.put⟩
      else Except.error ("Put leg must use a PCS spread")
  | LegSide.call =>
      if spread.spread_type = SpreadType.CCS then Except.ok ⟨spread, LegSide.call⟩
      else Except.error ("Call leg must use a CCS spread")

/-- Modelled from the spec: `IronCondor` record of the missing
`backend/iron_condor.py`. -/
structure IronCondor where
  put_leg : IronCondorLeg
  call_leg : IronCondorLeg
  underlying_price : ℚ
  days_to_expiration : ℕ
deriving DecidableEq

/-- Modelled from the spec: validating constructor for `IronCondor`; the two
legs must share underlying and expiration and the short put strike must lie
strictly below the short call strike. -/
def mkIronCondor (put_leg call_leg : IronCondorLeg) (underlying_price : ℚ)
    (days_to_expiration : ℕ) : Except String IronCondor :=
  if put_leg.spread.underlying ≠ call_leg.spread.underlying then
    Except.error ("Legs must have the same underlying")
  else if put_leg.spread.expiration ≠ call_leg.spread.expiration then
    Except.error ("Legs must have the same expiration")
  else if ¬ put_leg.spread.short_strike < call_leg.spread.short_strike then
    Except.error ("Invalid condor shape")
  else
    Except.ok ⟨put_leg, call_leg, underlying_price, days_to_expiration⟩

/-- Dollars per share-point: 100 shares per contract. -/
def CONTRACT_MULTIPLIER : ℚ := 100

def IronCondor.short_put_strike (c : IronCondor) : ℚ := c.put_leg.spread.short_strike

def IronCondor.long_put_strike (c : IronCondor) : ℚ := c.put_leg.spread.long_strike

def IronCondor.short_call_strike (c : IronCondor) : ℚ := c.call_leg.spread.short_strike

def IronCondor.long_call_strike (c : IronCondor) : ℚ := c.call_leg.spread.long_strike

def IronCondor.credit_pcs (c : IronCondor) : ℚ := c.put_leg.spread.credit

def IronCondor.credit_ccs (c : IronCondor) : ℚ := c.call_leg.spread.credit

def IronCondor.put_width (c : IronCondor) : ℚ := c.put_leg.spread.width

def IronCondor.call_width (c : IronCondor) : ℚ := c.call_leg.spread.width

/-- Modelled from the spec: total_credit = credit_pcs + credit_ccs. -/
def IronCondor.total_credit (c : IronCondor) : ℚ := c.credit_pcs + c.credit_ccs

/-- Modelled from the spec: max_loss_per_share = max(put_width, call_width)
− total_credit, clamped to be nonnegative. -/
def IronCondor.max_loss_per_share (c : IronCondor) : ℚ :=
  max 0 (max c.put_width c.call_width - c.total_credit)

def IronCondor.max_profit_dollars (c : IronCondor) : ℚ :=
  c.total_credit * CONTRACT_MULTIPLIER

def IronCondor.max_loss_dollars (c : IronCondor) : ℚ :=
  c.max_loss_per_share * CONTRACT_MULTIPLIER

/-- Modelled from the spec: breakeven_low = short_put_strike − total_credit. -/
def IronCondor.breakeven_low (c : IronCondor) : ℚ :=
  c.short_put_strike - c.total_credit

/-- Modelled from the spec: breakeven_high = short_call_strike + total_credit. -/
def IronCondor.breakeven_high (c : IronCondor) : ℚ :=
  c.short_call_strike + c.total_credit

/-- Modelled from the spec: distance to the lower breakeven as a fraction of
the underlying price, 0 when the underlying price is nonpositive. -/
def IronCondor.distance_to_BE_low_pct (c : IronCondor) : ℚ :=
  if c.underlying_price ≤ 0 then 0
  else (c.underlying_price - c.breakeven_low) / c.underlying_price

/-- Modelled from the spec: distance to the upper breakeven as a fraction of
the underlying price, 0 when the underlying price is nonpositive. -/
def IronCondor.distance_to_BE_high_pct (c : IronCondor) : ℚ :=
  if c.underlying_price ≤ 0 then 0
  else (c.breakeven_high - c.underlying_price) / c.underlying_price

/-- Modelled from the spec: piecewise-linear payoff of one condor contract at
an expiration price `s`: the max-profit plateau between the short strikes, the
max-loss floor beyond the long strikes, and on each wing linear interpolation
through the breakeven (where the payoff crosses zero). -/
def payoff_per_contract (c : IronCondor) (s : ℚ) : ℚ :=
  if c.short_put_strike ≤ s ∧ s ≤ c.short_call_strike then
    c.max_profit_dollars
  else if s ≤ c.long_put_strike ∨ c.long_call_strike ≤ s then
    -c.max_loss_dollars
  else if s < c.short_put_strike then
    if c.breakeven_low ≤ s then
      c.max_profit_dollars * (s - c.breakeven_low) /
        (c.short_put_strike - c.breakeven_low)
    else
      -(c.max_loss_dollars * (c.breakeven_low - s) /
        (c.breakeven_low - c.long_put_strike))
  else
    if s ≤ c.breakeven_high then
      c.max_profit_dollars * (c.breakeven_high - s) /
        (c.breakeven_high - c.short_call_strike)
    else
      -(c.max_loss_dollars * (s - c.breakeven_high) /
        (c.long_call_strike - c.breakeven_high))

/-- Modelled from the spec: roi_at_price = payoff / max_loss_dollars, and 0
when max_loss_dollars is 0. -/
def roi_at_price (c : IronCondor) (s : ℚ) : ℚ :=
  if c.max_loss_dollars = 0 then 0
  else payoff_per_contract c s / c.max_loss_dollars

/-- Modelled from the spec: try to assemble one condor from a put spread and a
call spread, `none` when either leg wrapper or the condor constructor rejects
the pair. -/
def tryBuildCondor (p c : CreditSpread) (underlying_price : ℚ)
    (days_to_expiration : ℕ) : Option IronCondor :=
  match mkIronCondorLeg p LegSide.put, mkIronCondorLeg c LegSide.call with
  | Except.ok pl, Except.ok cl =>
      (mkIronCondor pl cl underlying_price days_to_expiration).toOption
  | _, _ => none

/-- Modelled from the spec: `build_iron_condors` of the missing
`backend/iron_condor.py` — the full cross-product of put spreads and call
spreads, silently skipping every pair whose construction fails. -/
def build_iron_condors (put_spreads call_spreads : List CreditSpread)
    (underlying_price : ℚ) (days_to_expiration : ℕ) : List IronCondor :=
  put_spreads.flatMap fun p =>
    call_spreads.filterMap fun c =>
      tryBuildCondor p c underlying_price days_to_expiration

/-- The put credit spread of the symmetric-condor test fixture. -/
def testPCS : CreditSpread :=
  ⟨"TEST", "2025-12-19", SpreadType.PCS, 95, 90, 1, 0.15, 0.05, 500, 1000⟩

/-- The call credit spread of the symmetric-condor test fixture. -/
def testCCS : CreditSpread :=
  ⟨"TEST", "2025-12-19", SpreadType.CCS, 105, 110, 1, 0.15, 0.05, 500, 1000⟩

/-- The symmetric condor fixture: PCS 95/90 and CCS 105/110, each for a 1.00
credit, underlying 100, 30 days to expiration. -/
def symmetricCondor : IronCondor :=
  ⟨⟨testPCS, LegSide.put⟩, ⟨testCCS, LegSide.call⟩, 100, 30⟩

/-- The condor shape invariants of spec §3: long put below short put (PCS),
short put below short call (constructor check), short call below long call
(CCS). -/
def CondorShape (c : IronCondor) : Prop :=
  c.long_put_strike < c.short_put_strike ∧
  c.short_put_strike < c.short_call_strike ∧
  c.short_call_strike < c.long_call_strike

/-- The symmetric condor fixture with a zero underlying price. -/
def zeroPriceCondor : IronCondor :=
  ⟨⟨testPCS, LegSide.put⟩, ⟨testCCS, LegSide.call⟩, 0, 30⟩

/-- A condor whose total credit (3.0) exceeds its put width (2.0): the lower
breakeven falls below the long put strike. -/
def wideCreditCondor : IronCondor :=
  ⟨⟨⟨"TEST", "2025-12-19", SpreadType.PCS, 95, 93, 2.5, 0.15, 0.05, 500, 1000⟩,
      LegSide.put⟩,
   ⟨⟨"TEST", "2025-12-19", SpreadType.CCS, 105, 115, 0.5, 0.15, 0.05, 500, 1000⟩,
      LegSide.call⟩,
   100, 30⟩

/-- Option type of a chain row. -/
inductive OptType where
  | call
  | put
deriving DecidableEq

/-- One row of an option-chain snapshot.  `bid`/`ask`/`delta` are `Option`:
`none` models a NaN or missing market field. -/
structure ChainRow where
  strike : ℚ
  bid : Option ℚ
  ask : Option ℚ
  volume : ℕ
  openInterest : ℕ
  impliedVolatility : ℚ
  delta : Option ℚ
  dte : ℕ
  option_type : OptType
deriving DecidableEq

/-- Modelled from the spec: the screener thresholds of `ScreenerConfig` in the
missing `backend/credit_spread_screener.py` that the builder and the
filter/sort stage consult. -/
structure ScreenerConfig where
  min_delta : ℚ
  max_delta : ℚ
  max_width : ℚ
  min_roc : ℚ
  min_ivp : ℚ
  min_liquidity_score : ℚ
  min_slippage_score : ℚ
deriving DecidableEq

/-- A candidate credit spread produced by the builder. -/
structure SpreadRec where
  spread_type : SpreadType
  short_strike : ℚ
  long_strike : ℚ
  width : ℚ
  credit : ℚ
  short_delta : ℚ
  roc : ℚ
deriving DecidableEq

/-- Modelled from the spec: validate one ordered (short, long) pair of chain
rows of the missing `build_credit_spreads_from_chain`.  The pair is rejected
when the width is nonpositive or above `max_width`, a needed quote is
missing/NaN, the credit `short.bid − long.ask` is nonpositive, the short delta
magnitude falls outside `[min_delta, max_delta]`, or the return on capital is
below `min_roc`.  `est` is the Black-Scholes delta estimator used when the
chain supplies no delta. -/
def mkSpreadPair (cfg : ScreenerConfig)
    (est : ℚ → ℚ → ℕ → ℚ → OptType → ℚ)
    (underlying_price : ℚ) (ty : SpreadType)
    (shortRow longRow : ChainRow) : Option SpreadRec :=
  match shortRow.bid, longRow.ask with
  | some b, some a =>
      let width :=
        match ty with
        | SpreadType.PCS => shortRow.strike - longRow.strike
        | SpreadType.CCS => longRow.strike - shortRow.strike
      let credit := b - a
      let d :=
        match shortRow.delta with
        | some d => d
        | none =>
            est shortRow.strike underlying_price shortRow.dte
              shortRow.impliedVolatility shortRow.option_type
      let max_loss := width - credit
      let roc := if max_loss ≤ 0 then 0 else credit / max_loss
      if 0 < width ∧ width ≤ cfg.max_width ∧ 0 < credit ∧
          cfg.min_delta ≤ |d| ∧ |d| ≤ cfg.max_delta ∧ cfg.min_roc ≤ roc then
        some ⟨ty, shortRow.strike, longRow.strike, width, credit, d, roc⟩
      else none
  | _, _ => none

/-- OTM put rows of a chain: puts struck strictly below the underlying. -/
def otmPuts (chain : List ChainRow) (underlying_price : ℚ) : List ChainRow :=
  chain.filter fun r =>
    decide (r.option_type = OptType.put) && decide (r.strike < underlying_price)

/-- OTM call rows of a chain: calls struck strictly above the underlying. -/
def otmCalls (chain : List ChainRow) (underlying_price : ℚ) : List ChainRow :=
  chain.filter fun r =>
    decide (r.option_type = OptType.call) && decide (underlying_price < r.strike)

/-- Modelled from the spec: `build_credit_spreads_from_chain` of the missing
`backend/credit_spread_screener.py` — partition the chain into OTM puts and
OTM calls, enumerate ordered pairs on each side, and keep the pairs that
survive all constraints. -/
def build_credit_spreads_from_chain (chain : List ChainRow)
    (underlying_price : ℚ) (cfg : ScreenerConfig)
    (est : ℚ → ℚ → ℕ → ℚ → OptType → ℚ) : List SpreadRec :=
  let puts := otmPuts chain underlying_price
  let calls := otmCalls chain underlying_price
  (puts.flatMap fun sR =>
    puts.filterMap fun lR =>
      mkSpreadPair cfg est underlying_price SpreadType.PCS sR lR) ++
  (calls.flatMap fun sR =>
    calls.filterMap fun lR =>
      mkSpreadPair cfg est underlying_price SpreadType.CCS sR lR)

/-- Modelled from the spec: clip one raw metric value before min-max scaling —
negatives are clipped to 0 and a NaN (`none`) is treated as 0. -/
def clipRaw : Option ℚ → ℚ
  | none => 0
  | some x => max 0 x

/-- Maximum of a list of rationals (0 for the empty list). -/
def listMax : List ℚ → ℚ
  | [] => 0
  | h :: t => t.foldl max h

/-- Minimum of a list of rationals (0 for the empty list). -/
def listMin : List ℚ → ℚ
  | [] => 0
  | h :: t => t.foldl min h

/-- Min-max score of one clipped value `x` against the clipped population
maximum `M` and minimum `m`: a constant population scores 1 when positive and
0 otherwise, avoiding the zero division. -/
def scoreFun (M m x : ℚ) : ℚ :=
  if M = m then (if 0 < M then 1 else 0) else (x - m) / (M - m)

/-- Modelled from the spec: `_normalize_roi_score` of the missing
`backend/leaps_ranker.py` — clip each raw value (negatives and NaN to 0), then
min-max scale against the clipped population minimum and maximum; when the
population is constant, every element scores 1 if the common clipped value is
positive and 0 otherwise. -/
def normalize_roi_score (raws : List (Option ℚ)) : List ℚ :=
  let c := raws.map clipRaw
  c.map (scoreFun (listMax c) (listMin c))

/-- A scored spread candidate as seen by the filter/sort stage. -/
structure ScoredCandidate where
  ivp : ℚ
  liquidity_score : ℚ
  slippage_score : ℚ
  total_score : ℚ
deriving DecidableEq

/-- The three hard filters of the screener filter/sort stage. -/
def passesFilters (cfg : ScreenerConfig) (c : ScoredCandidate) : Bool :=
  decide (cfg.min_ivp ≤ c.ivp) &&
  decide (cfg.min_liquidity_score ≤ c.liquidity_score) &&
  decide (cfg.min_slippage_score ≤ c.slippage_score)

/-- Stable descending insertion: the new element goes in front of the first
element whose total score it matches or exceeds, so earlier elements win
ties. -/
def insertByScore (c : ScoredCandidate) : List ScoredCandidate → List ScoredCandidate
  | [] => [c]
  | d :: ds =>
      if d.total_score ≤ c.total_score then c :: d :: ds
      else d :: insertByScore c ds

/-- Stable insertion sort by total score, descending. -/
def sortByScoreDesc : List ScoredCandidate → List ScoredCandidate
  | [] => []
  | x :: xs => insertByScore x (sortByScoreDesc xs)

/-- Modelled from the spec: `filter_and_sort_spreads` of the missing
`backend/credit_spread_screener.py` — keep the candidates meeting the minimum
IVP, liquidity and slippage thresholds, then stably sort by total score
descending. -/
def filter_and_sort_spreads (candidates : List ScoredCandidate)
    (cfg : ScreenerConfig) : List ScoredCandidate :=
  sortByScoreDesc (candidates.filter (passesFilters cfg))

/-- Modelled from the spec: LEAPS contract cost = premium × 100, from the
missing `backend/leaps_ranker.py`. -/
def leaps_cost (premium : ℚ) : ℚ := premium * 100

/-- Modelled from the spec: LEAPS payoff at the target price =
max(0, target_price − strike) × 100, from the missing `backend/leaps_ranker.py`. -/
def leaps_payoff_at_target (target_price strike : ℚ) : ℚ :=
  max 0 (target_price - strike) * 100

/-- Modelled from the spec: LEAPS roi = (payoff − cost)/cost, 0 when the cost
is nonpositive, from the missing `backend/leaps_ranker.py`. -/
def leaps_roi (payoff cost : ℚ) : ℚ :=
  if cost ≤ 0 then 0 else (payoff - cost) / cost

/-- ASCII uppercase letter test used by the ticker-symbol validator. -/
def isUpperAZ (c : Char) : Bool :=
  decide ('A' ≤ c) && decide (c ≤ 'Z')

/-- Model of the Python `str.strip()` call: drop whitespace from both ends. -/
def pyStrip (s : List Char) : List Char :=
  ((s.dropWhile Char.isWhitespace).reverse.dropWhile Char.isWhitespace).reverse

/-- Model of the Python `str.upper()` call: uppercase every character. -/
def pyUpper (s : List Char) : List Char := s.map Char.toUpper

/-- The normalization `v.strip().upper()` applied by the ticker validator. -/
def normalizeSymbol (v : String) : String :=
  String.mk (pyUpper (pyStrip v.toList))

/-- Model of `validate_ticker_symbol` in `backend/app/routes/chain_analysis.py`: strip
surrounding whitespace, uppercase, then reject when the result is empty,
longer than five characters, or contains a character outside A–Z; otherwise
return the normalized symbol. -/
def validate_ticker_symbol (v : String) : Except String String :=
  let n := normalizeSymbol v
  if n.length = 0 ∨ 5 < n.length then
    Except.error ("Symbol must be 1-5 characters")
  else if ¬ n.toList.all isUpperAZ then
    Except.error ("Symbol must contain only uppercase letters (A-Z)")
  else
    Except.ok n

/-- Standard normal CDF, written as 1/2 plus the scaled Gaussian integral
from 0. -/
noncomputable def normCdf (x : ℝ) : ℝ :=
  1 / 2 + (∫ t in (0:ℝ)..x, Real.exp (-(1 / 2) * t ^ 2)) / Real.sqrt (2 * Real.pi)

/-- Standard normal PDF. -/
noncomputable def normPdf (x : ℝ) : ℝ :=
  Real.exp (-(1 / 2) * x ^ 2) / Real.sqrt (2 * Real.pi)

/-- Modelled from the spec: the constant risk-free rate used by the missing
`estimate_delta` of `backend/credit_spread_screener.py` (the same default as
`_calculate_greeks` in `chain_analysis.py`). -/
noncomputable def RISK_FREE_RATE : ℝ := 0.05

/-- Modelled from the spec: the constant dividend yield used by the missing
`estimate_delta` of `backend/credit_spread_screener.py` (the same default as
`_calculate_greeks` in `chain_analysis.py`). -/
noncomputable def DIVIDEND_YIELD : ℝ := 0.013

/-- Black-Scholes d1. -/
noncomputable def bs_d1 (S K r q sigma T : ℝ) : ℝ :=
  (Real.log (S / K) + (r - q + sigma ^ 2 / 2) * T) / (sigma * Real.sqrt T)

/-- Modelled from the spec: `estimate_delta` of the missing
`backend/credit_spread_screener.py` — 0 on degenerate inputs, otherwise the
Black-Scholes delta `exp(−q·T)·Φ(d1)` for calls and `exp(−q·T)·(Φ(d1)−1)` for
puts, with time to expiry `dte/365`. -/
noncomputable def estimate_delta (strike underlying_price : ℝ) (dte : ℤ)
    (iv : ℝ) (ty : OptType) : ℝ :=
  if dte ≤ 0 ∨ iv ≤ 0 ∨ underlying_price ≤ 0 then 0
  else
    let T : ℝ := (dte : ℝ) / 365
    let d1 := bs_d1 underlying_price strike RISK_FREE_RATE DIVIDEND_YIELD iv T
    match ty with
    | OptType.call => Real.exp (-DIVIDEND_YIELD * T) * normCdf d1
    | OptType.put => Real.exp (-DIVIDEND_YIELD * T) * (normCdf d1 - 1)

/-- The five Greeks returned by the Greeks calculator; a `none` field models
the Python value None. -/
structure Greeks where
  delta : Option ℝ
  gamma : Option ℝ
  theta : Option ℝ
  vega : Option ℝ
  rho : Option ℝ

/-- The all-`None` Greeks record returned on degenerate inputs. -/
def allNoneGreeks : Greeks := ⟨none, none, none, none, none⟩

/-- Rounding to 4 decimal places, as applied to every returned Greek. -/
noncomputable def round4 (x : ℝ) : ℝ := (round (x * 10000) : ℤ) / 10000

/-- The Black-Scholes Greeks of `_calculate_greeks` after the degenerate-input
guard and the percentage-vs-decimal normalization of `iv`: `sigma` is the
volatility actually used. -/
noncomputable def greeksCore (ty : OptType) (strike underlying_price : ℝ)
    (dte : ℤ) (sigma r q : ℝ) : Greeks :=
  let S := underlying_price
  let K := strike
  let T : ℝ := (dte : ℝ) / 365
  let sqrtT := Real.sqrt T
  let d1 := (Real.log (S / K) + (r - q + sigma ^ 2 / 2) * T) / (sigma * sqrtT)
  let d2 := d1 - sigma * sqrtT
  let nd1 := normPdf d1
  let delta :=
    match ty with
    | OptType.call => Real.exp (-q * T) * normCdf d1
    | OptType.put => Real.exp (-q * T) * (normCdf d1 - 1)
  let rho :=
    match ty with
    | OptType.call => K * T * Real.exp (-r * T) * normCdf d2 / 100
    | OptType.put => -(K * T * Real.exp (-r * T) * normCdf (-d2)) / 100
  let gamma := Real.exp (-q * T) * nd1 / (S * sigma * sqrtT)
  let vega := S * Real.exp (-q * T) * nd1 * sqrtT / 100
  let common := -S * Real.exp (-q * T) * nd1 * sigma / (2 * sqrtT)
  let theta :=
    match ty with
    | OptType.call =>
        (common - r * K * Real.exp (-r * T) * normCdf d2 +
          q * S * Real.exp (-q * T) * normCdf d1) / 365
    | OptType.put =>
        (common + r * K * Real.exp (-r * T) * normCdf (-d2) -
          q * S * Real.exp (-q * T) * normCdf (-d1)) / 365
  ⟨some (round4 delta), some (round4 gamma), some (round4 theta),
    some (round4 vega), some (round4 rho)⟩

/-- Model of the Greeks calculator in `backend/app/routes/chain_analysis.py`: all-`None`
when `dte ≤ 0`, `iv ≤ 0`, `underlying_price ≤ 0` or `strike ≤ 0`; otherwise
full Black-Scholes Greeks with an `iv` of at least 1 interpreted as a
percentage and divided by 100, every output rounded to 4 decimal places. -/
noncomputable def calculate_greeks (ty : OptType) (strike underlying_price : ℝ)
    (dte : ℤ) (iv : ℝ) (r q : ℝ) : Greeks :=
  if dte ≤ 0 ∨ iv ≤ 0 ∨ underlying_price ≤ 0 ∨ strike ≤ 0 then allNoneGreeks
  else
    greeksCore ty strike underlying_price dte (if iv < 1 then iv else iv / 100) r q

/-- C1: the derived quantities of every iron condor satisfy total_credit =
credit_pcs + credit_ccs, max_loss_per_share = max(put_width, call_width) −
total_credit clamped at 0, breakeven_low = short_put_strike − total_credit,
breakeven_high = short_call_strike + total_credit, and both
distance-to-breakeven percentages are 0 for a nonpositive underlying price;
the symmetric 95/90–105/110 condor with 1.00 credit on each leg, underlying
100, dte 30 yields total_credit 2.0, max_loss_per_share 3.0,
max_profit_dollars 200.0, max_loss_dollars 300.0, breakeven_low 93.0 and
breakeven_high 107.0. -/
theorem c1_condor_derived_quantities :
    (∀ c : IronCondor,
        c.total_credit = c.credit_pcs + c.credit_ccs ∧
        c.max_loss_per_share = max 0 (max c.put_width c.call_width - c.total_credit) ∧
        c.breakeven_low = c.short_put_strike - c.total_credit ∧
        c.breakeven_high = c.short_call_strike + c.total_credit) ∧
    (∀ c : IronCondor, c.underlying_price ≤ 0 →
        c.distance_to_BE_low_pct = 0 ∧ c.distance_to_BE_high_pct = 0) ∧
    (mkIronCondorLeg testPCS LegSide.put = Except.ok ⟨testPCS, LegSide.put⟩ ∧
     mkIronCondorLeg testCCS LegSide.call = Except.ok ⟨testCCS, LegSide.call⟩ ∧
     mkIronCondor ⟨testPCS, LegSide.put⟩ ⟨testCCS, LegSide.call⟩ 100 30 =
       Except.ok symmetricCondor ∧
     symmetricCondor.total_credit = 2 ∧
     symmetricCondor.max_loss_per_share = 3 ∧
     symmetricCondor.max_profit_dollars = 200 ∧
     symmetricCondor.max_loss_dollars = 300 ∧
     symmetricCondor.breakeven_low = 93 ∧
     symmetricCondor.breakeven_high = 107) := by
  refine ⟨fun c => ⟨rfl, rfl, rfl, rfl⟩, fun c h => ?_,
    rfl, rfl, rfl, ?_, ?_, ?_, ?_, ?_, ?_⟩
  · constructor
    · simp [IronCondor.distance_to_BE_low_pct, h]
    · simp [IronCondor.distance_to_BE_high_pct, h]
  all_goals
    norm_num [symmetricCondor, testPCS, testCCS, IronCondor.total_credit,
      IronCondor.credit_pcs, IronCondor.credit_ccs, IronCondor.max_loss_per_share,
      IronCondor.put_width, IronCondor.call_width, CreditSpread.width,
      IronCondor.max_profit_dollars, IronCondor.max_loss_dollars,
      CONTRACT_MULTIPLIER, IronCondor.breakeven_low, IronCondor.breakeven_high,
      IronCondor.short_put_strike, IronCondor.short_call_strike]

/-- Witness for C1: the zero-underlying-price condor has both
distance-to-breakeven percentages equal to 0. -/
theorem c1_condor_derived_quantities_witness :
    zeroPriceCondor.distance_to_BE_low_pct = 0 ∧
    zeroPriceCondor.distance_to_BE_high_pct = 0 :=
  c1_condor_derived_quantities.2.1 zeroPriceCondor (by norm_num [zeroPriceCondor])

/-- C9: LEAPS cost is premium × 100, payoff at target is
max(0, target − strike) × 100, and roi is (payoff − cost)/cost with 0 for a
nonpositive cost; cost 1000 with payoff 2500 gives roi 1.5 and cost 1000 with
payoff 0 gives roi −1. -/
theorem c9_leaps_roi_formulas :
    (∀ premium : ℚ, leaps_cost premium = premium * 100) ∧
    (∀ target_price strike : ℚ,
        leaps_payoff_at_target target_price strike =
          max 0 (target_price - strike) * 100) ∧
    (∀ payoff cost : ℚ, cost ≤ 0 → leaps_roi payoff cost = 0) ∧
    (∀ payoff cost : ℚ, 0 < cost →
        leaps_roi payoff cost = (payoff - cost) / cost) ∧
    leaps_roi 2500 1000 = 3 / 2 ∧
    leaps_roi 0 1000 = -1 := by
  refine ⟨fun _ => rfl, fun _ _ => rfl, fun payoff cost h => ?_,
    fun payoff cost h => ?_, by norm_num [leaps_roi], by norm_num [leaps_roi]⟩
  · simp [leaps_roi, h]
  · simp [leaps_roi, not_le.mpr h]

/-- Witness for C9: a zero-cost contract has roi 0. -/
theorem c9_leaps_roi_formulas_witness : leaps_roi 500 0 = 0 :=
  c9_leaps_roi_formulas.2.2.1 500 0 le_rfl

/-- An `Except` value maps to a `some` under `toOption` exactly when it is an
`ok`. -/
theorem except_toOption_isSome {ε α : Type} (e : Except ε α) :
    e.toOption.isSome = true ↔ ∃ a, e = Except.ok a := by
  cases e <;> simp [Except.toOption]

/-- The condor constructor `mkIronCondor` succeeds exactly when the two legs share underlying and
expiration and the short put strike is below the short call strike. -/
theorem mkIronCondor_ok_iff (pl cl : IronCondorLeg) (S : ℚ) (d : ℕ) :
    (∃ c, mkIronCondor pl cl S d = Except.ok c) ↔
      (pl.spread.underlying = cl.spread.underlying ∧
       pl.spread.expiration = cl.spread.expiration ∧
       pl.spread.short_strike < cl.spread.short_strike) := by
  unfold mkIronCondor
  by_cases h1 : pl.spread.underlying = cl.spread.underlying
  · by_cases h2 : pl.spread.expiration = cl.spread.expiration
    · by_cases h3 : pl.spread.short_strike < cl.spread.short_strike
      · simp [h1, h2, h3]
      · simp [h1, h2, h3]
    · simp [h1, h2]
  · simp [h1]

/-- C5: a put leg rejects a non-PCS spread and a call leg a non-CCS spread
with a value error; the condor constructor succeeds exactly when the legs
share underlying and expiration and the short put strike is below the short
call strike; and `build_iron_condors` assembles exactly the valid pairs of the
put × call cross-product, silently excluding every invalid pair without
aborting the batch. -/
theorem c5_condor_construction_validation :
    (∀ s : CreditSpread, s.spread_type ≠ SpreadType.PCS →
        mkIronCondorLeg s LegSide.put =
          Except.error ("Put leg must use a PCS spread")) ∧
    (∀ s : CreditSpread, s.spread_type ≠ SpreadType.CCS →
        mkIronCondorLeg s LegSide.call =
          Except.error ("Call leg must use a CCS spread")) ∧
    (∀ (pl cl : IronCondorLeg) (S : ℚ) (d : ℕ),
        (∃ c, mkIronCondor pl cl S d = Except.ok c) ↔
          (pl.spread.underlying = cl.spread.underlying ∧
           pl.spread.expiration = cl.spread.expiration ∧
           pl.spread.short_strike < cl.spread.short_strike)) ∧
    (∀ (p c : CreditSpread) (S : ℚ) (d : ℕ),
        (tryBuildCondor p c S d).isSome = true ↔
          (p.spread_type = SpreadType.PCS ∧ c.spread_type = SpreadType.CCS ∧
           p.underlying = c.underlying ∧ p.expiration = c.expiration ∧
           p.short_strike < c.short_strike)) ∧
    (∀ (puts calls : List CreditSpread) (S : ℚ) (d : ℕ) (x : IronCondor),
        x ∈ build_iron_condors puts calls S d ↔
          ∃ p ∈ puts, ∃ c ∈ calls, tryBuildCondor p c S d = some x) := by
  refine ⟨fun s h => by simp [mkIronCondorLeg, h], fun s h => by simp [mkIronCondorLeg, h],
    mkIronCondor_ok_iff, fun p c S d => ?_, fun puts calls S d x => ?_⟩
  · by_cases hp : p.spread_type = SpreadType.PCS
    · by_cases hc : c.spread_type = SpreadType.CCS
      · simp [tryBuildCondor, mkIronCondorLeg, hp, hc, except_toOption_isSome,
          mkIronCondor_ok_iff]
      · simp [tryBuildCondor, mkIronCondorLeg, hp, hc]
    · simp [tryBuildCondor, mkIronCondorLeg, hp]
  · simp [build_iron_condors, List.mem_flatMap, List.mem_filterMap]

/-- Witness for C5: wrapping the CCS fixture as a put leg is rejected. -/
theorem c5_condor_construction_validation_witness :
    mkIronCondorLeg testCCS LegSide.put =
      Except.error ("Put leg must use a PCS spread") :=
  c5_condor_construction_validation.1 testCCS (by decide)

/-- C10: `validate_ticker_symbol` strips and uppercases its input, then
rejects with a value error exactly when the normalized symbol is empty, longer
than five characters, or contains a character outside A–Z, and otherwise
returns the normalized symbol; in particular " spy " is canonicalized to
"SPY". -/
theorem c10_ticker_validation :
    (∀ v : String,
        ((normalizeSymbol v).length = 0 ∨ 5 < (normalizeSymbol v).length ∨
            ∃ ch ∈ (normalizeSymbol v).toList, isUpperAZ ch = false) →
          ∃ msg, validate_ticker_symbol v = Except.error msg) ∧
    (∀ v : String,
        (normalizeSymbol v).length ≠ 0 → (normalizeSymbol v).length ≤ 5 →
        (∀ ch ∈ (normalizeSymbol v).toList, isUpperAZ ch = true) →
          validate_ticker_symbol v = Except.ok (normalizeSymbol v)) ∧
    validate_ticker_symbol (" spy ") = Except.ok ("SPY") := by
  refine ⟨fun v h => ?_, fun v h1 h2 h3 => ?_, rfl⟩
  · simp only [validate_ticker_symbol]
    by_cases hlen : (normalizeSymbol v).length = 0 ∨ 5 < (normalizeSymbol v).length
    · rw [if_pos hlen]
      exact ⟨_, rfl⟩
    · rw [if_neg hlen]
      push_neg at hlen
      have hbad : ¬ (normalizeSymbol v).toList.all isUpperAZ = true := by
        rcases h with h | h | ⟨ch, hch, hb⟩
        · exact absurd h hlen.1
        · exact absurd h (not_lt.mpr hlen.2)
        · intro hall
          rw [List.all_eq_true] at hall
          have hc := hall ch hch
          rw [hb] at hc
          exact Bool.false_ne_true hc
      rw [if_pos hbad]
      exact ⟨_, rfl⟩
  · simp only [validate_ticker_symbol]
    rw [if_neg (by push_neg; exact ⟨h1, h2⟩),
      if_neg (not_not_intro (List.all_eq_true.mpr h3))]

/-- Witness for C10: a lowercase in-range symbol is accepted and
canonicalized. -/
theorem c10_ticker_validation_witness :
    validate_ticker_symbol ("qqq") = Except.ok (normalizeSymbol ("qqq")) :=
  c10_ticker_validation.2.1 ("qqq") (by decide) (by decide) (by decide)

/-- C2 (amended): for every condor with the §3 shape invariants, the payoff
equals max_profit_dollars on [short_put_strike, short_call_strike] and
−max_loss_dollars below the long put strike and above the long call strike;
the payoff is 0 at both breakevens whenever the total credit is positive and
smaller than the width of each wing (so the breakevens lie strictly inside the
wings); and roi_at_price is payoff / max_loss_dollars, 0 when
max_loss_dollars is 0. -/
theorem c2_payoff_and_roi :
    (∀ (c : IronCondor) (s : ℚ), c.short_put_strike ≤ s → s ≤ c.short_call_strike →
        payoff_per_contract c s = c.max_profit_dollars) ∧
    (∀ (c : IronCondor) (s : ℚ), CondorShape c → s < c.long_put_strike →
        payoff_per_contract c s = -c.max_loss_dollars) ∧
    (∀ (c : IronCondor) (s : ℚ), CondorShape c → c.long_call_strike < s →
        payoff_per_contract c s = -c.max_loss_dollars) ∧
    (∀ c : IronCondor, CondorShape c → 0 < c.total_credit →
        c.total_credit < c.put_width →
        payoff_per_contract c c.breakeven_low = 0) ∧
    (∀ c : IronCondor, CondorShape c → 0 < c.total_credit →
        c.total_credit < c.call_width →
        payoff_per_contract c c.breakeven_high = 0) ∧
    (∀ (c : IronCondor) (s : ℚ), roi_at_price c s =
        if c.max_loss_dollars = 0 then 0
        else payoff_per_contract c s / c.max_loss_dollars) := by
  refine ⟨fun c s h1 h2 => ?_, fun c s hsh h => ?_, fun c s hsh h => ?_,
    fun c hsh ht htw => ?_, fun c hsh ht htw => ?_, fun c s => rfl⟩
  · unfold payoff_per_contract
    rw [if_pos ⟨h1, h2⟩]
  · obtain ⟨hs1, hs2, hs3⟩ := hsh
    have hnot : ¬ (c.short_put_strike ≤ s ∧ s ≤ c.short_call_strike) := by
      rintro ⟨hle, -⟩
      linarith
    unfold payoff_per_contract
    rw [if_neg hnot, if_pos (Or.inl h.le)]
  · obtain ⟨hs1, hs2, hs3⟩ := hsh
    have hnot : ¬ (c.short_put_strike ≤ s ∧ s ≤ c.short_call_strike) := by
      rintro ⟨-, hle⟩
      linarith
    unfold payoff_per_contract
    rw [if_neg hnot, if_pos (Or.inr h.le)]
  · obtain ⟨hs1, hs2, hs3⟩ := hsh
    have hpw : c.put_width = c.short_put_strike - c.long_put_strike := by
      have : (0:ℚ) < c.short_put_strike - c.long_put_strike := by linarith
      exact abs_of_pos this
    have hbe : c.breakeven_low = c.short_put_strike - c.total_credit := rfl
    have h1 : ¬ (c.short_put_strike ≤ c.breakeven_low ∧
        c.breakeven_low ≤ c.short_call_strike) := by
      rintro ⟨hle, -⟩
      rw [hbe] at hle
      linarith
    have h2 : ¬ (c.breakeven_low ≤ c.long_put_strike ∨
        c.long_call_strike ≤ c.breakeven_low) := by
      rintro (hle | hle) <;> rw [hbe] at hle <;> rw [hpw] at htw <;> linarith
    have h3 : c.breakeven_low < c.short_put_strike := by
      rw [hbe]
      linarith
    unfold payoff_per_contract
    rw [if_neg h1, if_neg h2, if_pos h3, if_pos le_rfl, sub_self, mul_zero,
      zero_div]
  · obtain ⟨hs1, hs2, hs3⟩ := hsh
    have hcw : c.call_width = c.long_call_strike - c.short_call_strike := by
      have h0 : c.call_leg.spread.short_strike - c.call_leg.spread.long_strike ≤ 0 := by
        have : c.short_call_strike < c.long_call_strike := hs3
        unfold IronCondor.short_call_strike IronCondor.long_call_strike at this
        linarith
      have := abs_of_nonpos h0
      unfold IronCondor.call_width CreditSpread.width
      unfold IronCondor.long_call_strike IronCondor.short_call_strike
      rw [this]
      ring
    have hbe : c.breakeven_high = c.short_call_strike + c.total_credit := rfl
    have h1 : ¬ (c.short_put_strike ≤ c.breakeven_high ∧
        c.breakeven_high ≤ c.short_call_strike) := by
      rintro ⟨-, hle⟩
      rw [hbe] at hle
      linarith
    have h2 : ¬ (c.breakeven_high ≤ c.long_put_strike ∨
        c.long_call_strike ≤ c.breakeven_high) := by
      rintro (hle | hle) <;> rw [hbe] at hle <;> rw [hcw] at htw <;> linarith
    have h3 : ¬ c.breakeven_high < c.short_put_strike := by
      rw [hbe]
      push_neg
      linarith
    unfold payoff_per_contract
    rw [if_neg h1, if_neg h2, if_neg h3, if_pos le_rfl, sub_self, mul_zero,
      zero_div]

/-- Witness for C2: the symmetric condor pays max profit at the money, minus
max loss deep in the money, and zero at its lower breakeven. -/
theorem c2_payoff_and_roi_witness :
    payoff_per_contract symmetricCondor symmetricCondor.breakeven_low = 0 :=
  c2_payoff_and_roi.2.2.2.1 symmetricCondor
    (by
      refine ⟨?_, ?_, ?_⟩ <;>
        norm_num [CondorShape, symmetricCondor, testPCS, testCCS,
          IronCondor.long_put_strike, IronCondor.short_put_strike,
          IronCondor.short_call_strike, IronCondor.long_call_strike])
    (by
      norm_num [symmetricCondor, testPCS, testCCS, IronCondor.total_credit,
        IronCondor.credit_pcs, IronCondor.credit_ccs])
    (by
      norm_num [symmetricCondor, testPCS, testCCS, IronCondor.total_credit,
        IronCondor.credit_pcs, IronCondor.credit_ccs, IronCondor.put_width,
        CreditSpread.width])

/-- Counterexample for C2 as stated: `wideCreditCondor` is a valid condor
(PCS put leg, CCS call leg, accepted by the constructor) built with positive
net credit, yet its payoff at the lower breakeven is −700, not 0, because the
total credit exceeds the width of the put wing. -/
theorem c2_breakeven_counterexample :
    wideCreditCondor.put_leg.spread.spread_type = SpreadType.PCS ∧
    wideCreditCondor.call_leg.spread.spread_type = SpreadType.CCS ∧
    mkIronCondor wideCreditCondor.put_leg wideCreditCondor.call_leg 100 30 =
      Except.ok wideCreditCondor ∧
    0 < wideCreditCondor.total_credit ∧
    payoff_per_contract wideCreditCondor wideCreditCondor.breakeven_low = -700 ∧
    (-700 : ℚ) ≠ 0 := by
  refine ⟨rfl, rfl, rfl, ?_, ?_, by norm_num⟩
  · norm_num [wideCreditCondor, IronCondor.total_credit, IronCondor.credit_pcs,
      IronCondor.credit_ccs]
  · norm_num [payoff_per_contract, wideCreditCondor, IronCondor.breakeven_low,
      IronCondor.short_put_strike, IronCondor.long_put_strike,
      IronCondor.short_call_strike, IronCondor.long_call_strike,
      IronCondor.total_credit, IronCondor.credit_pcs, IronCondor.credit_ccs,
      IronCondor.max_profit_dollars, IronCondor.max_loss_dollars,
      IronCondor.max_loss_per_share, IronCondor.put_width,
      IronCondor.call_width, CreditSpread.width, CONTRACT_MULTIPLIER, abs]

/-- Every spread record produced by `mkSpreadPair` records the requested type
and the strikes of the two rows and satisfies the width, credit, delta and ROC
constraints. -/
theorem mkSpreadPair_some_facts (cfg : ScreenerConfig)
    (est : ℚ → ℚ → ℕ → ℚ → OptType → ℚ) (S : ℚ) (ty : SpreadType)
    (sR lR : ChainRow) (sp : SpreadRec)
    (h : mkSpreadPair cfg est S ty sR lR = some sp) :
    sp.spread_type = ty ∧ sp.short_strike = sR.strike ∧
    sp.long_strike = lR.strike ∧
    sp.width = (match ty with
      | SpreadType.PCS => sR.strike - lR.strike
      | SpreadType.CCS => lR.strike - sR.strike) ∧
    0 < sp.width ∧ sp.width ≤ cfg.max_width ∧ 0 < sp.credit ∧
    cfg.min_delta ≤ |sp.short_delta| ∧ |sp.short_delta| ≤ cfg.max_delta ∧
    cfg.min_roc ≤ sp.roc := by
  simp only [mkSpreadPair] at h
  split at h
  all_goals try exact Option.noConfusion h
  split at h
  all_goals
    split at h
    · rename_i hcond
      cases h
      refine ⟨rfl, rfl, rfl, ?_, hcond.1, hcond.2.1, hcond.2.2.1,
        hcond.2.2.2.1, hcond.2.2.2.2.1, hcond.2.2.2.2.2⟩
      cases ty <;> rfl
    · exact Option.noConfusion h

/-- A spread pair built from one and the same chain row is always rejected:
its width is zero. -/
theorem mkSpreadPair_self (cfg : ScreenerConfig)
    (est : ℚ → ℚ → ℕ → ℚ → OptType → ℚ) (S : ℚ) (ty : SpreadType)
    (r : ChainRow) : mkSpreadPair cfg est S ty r r = none := by
  unfold mkSpreadPair
  rcases hb : r.bid with - | b
  · rfl
  · rcases ha : r.ask with - | a
    · rfl
    · cases ty <;> simp [sub_self, lt_irrefl]

/-- C3: every spread built from a chain is OTM on the correct side with
correctly ordered strikes, has width in (0, max_width], positive credit,
short-delta magnitude within [min_delta, max_delta] and ROC at least min_roc;
and empty chains, single-row chains, all-ITM chains and chains whose pairs all
fail the constraints yield an empty result (the builder is total, so it never
raises). -/
theorem c3_spread_builder_invariants :
    (∀ (chain : List ChainRow) (S : ℚ) (cfg : ScreenerConfig)
        (est : ℚ → ℚ → ℕ → ℚ → OptType → ℚ) (sp : SpreadRec),
        sp ∈ build_credit_spreads_from_chain chain S cfg est →
        (sp.spread_type = SpreadType.PCS →
            sp.long_strike < sp.short_strike ∧ sp.short_strike < S ∧
            sp.long_strike < S) ∧
        (sp.spread_type = SpreadType.CCS →
            sp.short_strike < sp.long_strike ∧ S < sp.short_strike ∧
            S < sp.long_strike) ∧
        0 < sp.width ∧ sp.width ≤ cfg.max_width ∧ 0 < sp.credit ∧
        cfg.min_delta ≤ |sp.short_delta| ∧ |sp.short_delta| ≤ cfg.max_delta ∧
        cfg.min_roc ≤ sp.roc) ∧
    (∀ S cfg est, build_credit_spreads_from_chain [] S cfg est = []) ∧
    (∀ r S cfg est, build_credit_spreads_from_chain [r] S cfg est = []) ∧
    (∀ chain S cfg est,
        (∀ r ∈ chain, (r.option_type = OptType.put → S ≤ r.strike) ∧
            (r.option_type = OptType.call → r.strike ≤ S)) →
        build_credit_spreads_from_chain chain S cfg est = []) ∧
    (∀ chain S cfg est,
        (∀ ty sR lR, mkSpreadPair cfg est S ty sR lR = none) →
        build_credit_spreads_from_chain chain S cfg est = []) := by
  refine ⟨fun chain S cfg est sp hmem => ?_, fun S cfg est => rfl,
    fun r S cfg est => ?_, fun chain S cfg est hitm => ?_,
    fun chain S cfg est hall => ?_⟩
  · simp only [build_credit_spreads_from_chain, List.mem_append,
      List.mem_flatMap, List.mem_filterMap] at hmem
    rcases hmem with ⟨sR, hsR, lR, hlR, hpair⟩ | ⟨sR, hsR, lR, hlR, hpair⟩
    · simp only [otmPuts, List.mem_filter, Bool.and_eq_true,
        decide_eq_true_eq] at hsR hlR
      obtain ⟨hty, hss, hls, hwidth, hwpos, hwmax, hcred, hd1, hd2, hroc⟩ :=
        mkSpreadPair_some_facts cfg est S SpreadType.PCS sR lR sp hpair
      simp only [] at hwidth
      refine ⟨fun _ => ?_, fun hccs => ?_, hwpos, hwmax, hcred, hd1, hd2, hroc⟩
      · rw [hss, hls]
        rw [hwidth] at hwpos
        exact ⟨by linarith, hsR.2.2, hlR.2.2⟩
      · rw [hty] at hccs
        cases hccs
    · simp only [otmCalls, List.mem_filter, Bool.and_eq_true,
        decide_eq_true_eq] at hsR hlR
      obtain ⟨hty, hss, hls, hwidth, hwpos, hwmax, hcred, hd1, hd2, hroc⟩ :=
        mkSpreadPair_some_facts cfg est S SpreadType.CCS sR lR sp hpair
      simp only [] at hwidth
      refine ⟨fun hpcs => ?_, fun _ => ?_, hwpos, hwmax, hcred, hd1, hd2, hroc⟩
      · rw [hty] at hpcs
        cases hpcs
      · rw [hss, hls]
        rw [hwidth] at hwpos
        exact ⟨by linarith, hsR.2.2, hlR.2.2⟩
  · apply List.eq_nil_iff_forall_not_mem.mpr
    intro x hx
    simp only [build_credit_spreads_from_chain, List.mem_append,
      List.mem_flatMap, List.mem_filterMap] at hx
    rcases hx with ⟨sR, hsR, lR, hlR, hpair⟩ | ⟨sR, hsR, lR, hlR, hpair⟩ <;>
    · have hsr : sR = r := by
        simp only [otmPuts, otmCalls, List.mem_filter] at hsR
        exact List.mem_singleton.mp hsR.1
      have hlr : lR = r := by
        simp only [otmPuts, otmCalls, List.mem_filter] at hlR
        exact List.mem_singleton.mp hlR.1
      subst hsr hlr
      rw [mkSpreadPair_self] at hpair
      exact Option.noConfusion hpair
  · apply List.eq_nil_iff_forall_not_mem.mpr
    intro x hx
    simp only [build_credit_spreads_from_chain, List.mem_append,
      List.mem_flatMap, List.mem_filterMap] at hx
    rcases hx with ⟨sR, hsR, -, -, -⟩ | ⟨sR, hsR, -, -, -⟩
    · simp only [otmPuts, List.mem_filter, Bool.and_eq_true,
        decide_eq_true_eq] at hsR
      exact absurd hsR.2.2 (not_lt.mpr ((hitm sR hsR.1).1 hsR.2.1))
    · simp only [otmCalls, List.mem_filter, Bool.and_eq_true,
        decide_eq_true_eq] at hsR
      exact absurd hsR.2.2 (not_lt.mpr ((hitm sR hsR.1).2 hsR.2.1))
  · apply List.eq_nil_iff_forall_not_mem.mpr
    intro x hx
    simp only [build_credit_spreads_from_chain, List.mem_append,
      List.mem_flatMap, List.mem_filterMap] at hx
    rcases hx with ⟨sR, -, lR, -, hpair⟩ | ⟨sR, -, lR, -, hpair⟩ <;>
      rw [hall] at hpair <;> exact Option.noConfusion hpair

/-- Witness for C3: a one-row all-ITM put chain (strike 510 at underlying 500)
yields no spreads. -/
theorem c3_spread_builder_invariants_witness :
    build_credit_spreads_from_chain
      [⟨510, some 10, some 10.5, 1000, 5000, 0.22, none, 21, OptType.put⟩]
      500 ⟨0.08, 0.35, 10, 0.2, 40, 0, 0⟩ (fun _ _ _ _ _ => 0.15) = [] :=
  c3_spread_builder_invariants.2.2.2.1
    [⟨510, some 10, some 10.5, 1000, 5000, 0.22, none, 21, OptType.put⟩]
    500 ⟨0.08, 0.35, 10, 0.2, 40, 0, 0⟩ (fun _ _ _ _ _ => 0.15)
    (by
      intro r hr
      rw [List.mem_singleton] at hr
      subst hr
      exact ⟨fun _ => by norm_num, fun hcall => by cases hcall⟩)

/-- Inserting with `insertByScore` is a permutation of consing. -/
theorem insertByScore_perm (c : ScoredCandidate) (l : List ScoredCandidate) :
    (insertByScore c l).Perm (c :: l) := by
  induction l with
  | nil => exact List.Perm.refl _
  | cons d ds ih =>
      unfold insertByScore
      split
      · exact List.Perm.refl _
      · exact (ih.cons d).trans (List.Perm.swap c d ds)

/-- The stable descending sort permutes its input. -/
theorem sortByScoreDesc_perm (l : List ScoredCandidate) :
    (sortByScoreDesc l).Perm l := by
  induction l with
  | nil => exact List.Perm.refl _
  | cons x xs ih =>
      exact (insertByScore_perm x (sortByScoreDesc xs)).trans (ih.cons x)

/-- Insertion via `insertByScore` preserves the descending-by-score pairwise ordering. -/
theorem insertByScore_sorted (c : ScoredCandidate) (l : List ScoredCandidate)
    (h : l.Pairwise fun a b => b.total_score ≤ a.total_score) :
    (insertByScore c l).Pairwise fun a b => b.total_score ≤ a.total_score := by
  induction l with
  | nil => simp [insertByScore]
  | cons d ds ih =>
      rw [List.pairwise_cons] at h
      unfold insertByScore
      split
      · rename_i hd
        rw [List.pairwise_cons]
        refine ⟨fun e he => ?_, List.pairwise_cons.mpr h⟩
        rcases List.mem_cons.mp he with rfl | he2
        · exact hd
        · exact le_trans (h.1 e he2) hd
      · rename_i hd
        push_neg at hd
        rw [List.pairwise_cons]
        refine ⟨fun e he => ?_, ih h.2⟩
        rcases List.mem_cons.mp ((insertByScore_perm c ds).mem_iff.mp he) with
          rfl | he2
        · exact hd.le
        · exact h.1 e he2

/-- The stable descending sort produces a descending-by-score list. -/
theorem sortByScoreDesc_sorted (l : List ScoredCandidate) :
    (sortByScoreDesc l).Pairwise fun a b => b.total_score ≤ a.total_score := by
  induction l with
  | nil => simp [sortByScoreDesc]
  | cons x xs ih => exact insertByScore_sorted x _ ih

/-- Filtering an equal-score class through `insertByScore` keeps the inserted
element in front of the class exactly when it belongs to it. -/
theorem filter_insertByScore (c : ScoredCandidate) (l : List ScoredCandidate)
    (q : ℚ) :
    (insertByScore c l).filter (fun d => decide (d.total_score = q)) =
      if c.total_score = q then
        c :: l.filter (fun d => decide (d.total_score = q))
      else l.filter (fun d => decide (d.total_score = q)) := by
  induction l with
  | nil =>
      by_cases hc : c.total_score = q
      · simp [insertByScore, List.filter_cons, hc]
      · simp [insertByScore, List.filter_cons, hc]
  | cons d ds ih =>
      unfold insertByScore
      split
      · rename_i hd
        by_cases hc : c.total_score = q
        · simp [List.filter_cons, hc]
        · simp [List.filter_cons, hc]
      · rename_i hd
        push_neg at hd
        by_cases hc : c.total_score = q
        · have hdq : d.total_score ≠ q := by
            rw [← hc]
            exact ne_of_gt hd
          simp [List.filter_cons, ih, hc, hdq]
        · simp [List.filter_cons, ih, hc]

/-- Stability of the descending sort: each equal-score class keeps its
original relative order. -/
theorem filter_sortByScoreDesc (l : List ScoredCandidate) (q : ℚ) :
    (sortByScoreDesc l).filter (fun d => decide (d.total_score = q)) =
      l.filter (fun d => decide (d.total_score = q)) := by
  induction l with
  | nil => rfl
  | cons x xs ih =>
      show (insertByScore x (sortByScoreDesc xs)).filter _ = _
      rw [filter_insertByScore]
      by_cases hx : x.total_score = q
      · rw [if_pos hx, ih, List.filter_cons, if_pos (by simp [hx])]
      · rw [if_neg hx, ih, List.filter_cons, if_neg (by simp [hx])]

/-- C6: `filter_and_sort_spreads` keeps exactly the candidates meeting the
minimum IVP, liquidity and slippage thresholds (a permutation of the filtered
input, with every survivor satisfying its own filter predicates), sorted by
total score descending, with ties preserving original relative order (each
equal-score class of the output equals that class of the filtered input). -/
theorem c6_filter_and_sort :
    ∀ (l : List ScoredCandidate) (cfg : ScreenerConfig),
      (∀ c ∈ filter_and_sort_spreads l cfg,
          cfg.min_ivp ≤ c.ivp ∧ cfg.min_liquidity_score ≤ c.liquidity_score ∧
          cfg.min_slippage_score ≤ c.slippage_score) ∧
      (filter_and_sort_spreads l cfg).Perm (l.filter (passesFilters cfg)) ∧
      (filter_and_sort_spreads l cfg).Pairwise
        (fun a b => b.total_score ≤ a.total_score) ∧
      (∀ q : ℚ,
          (filter_and_sort_spreads l cfg).filter
              (fun c => decide (c.total_score = q)) =
            (l.filter (passesFilters cfg)).filter
              (fun c => decide (c.total_score = q))) := by
  intro l cfg
  refine ⟨fun c hc => ?_, sortByScoreDesc_perm _, sortByScoreDesc_sorted _,
    fun q => filter_sortByScoreDesc _ q⟩
  have hmem : c ∈ l.filter (passesFilters cfg) :=
    (sortByScoreDesc_perm (l.filter (passesFilters cfg))).mem_iff.mp hc
  have hpass := (List.mem_filter.mp hmem).2
  rw [passesFilters, Bool.and_eq_true, Bool.and_eq_true, decide_eq_true_eq,
    decide_eq_true_eq, decide_eq_true_eq] at hpass
  exact ⟨hpass.1.1, hpass.1.2, hpass.2⟩

/-- Witness for C6: a candidate retained from a singleton input satisfies the
filter thresholds. -/
theorem c6_filter_and_sort_witness :
    (40:ℚ) ≤ 50 ∧ (1/10:ℚ) ≤ 1/2 ∧ (1/10:ℚ) ≤ 1/2 := by
  have h :=
    (c6_filter_and_sort [⟨50, 1/2, 1/2, 3/4⟩]
        ⟨2/25, 7/20, 10, 1/5, 40, 1/10, 1/10⟩).1 ⟨50, 1/2, 1/2, 3/4⟩
      (by
        norm_num [filter_and_sort_spreads, List.filter_cons, passesFilters,
          sortByScoreDesc, insertByScore, Bool.and_eq_true, decide_eq_true_eq])
  exact h

/-- A fold of `max` dominates its seed and every folded element. -/
theorem le_foldl_max (t : List ℚ) (h : ℚ) :
    h ≤ t.foldl max h ∧ ∀ x ∈ t, x ≤ t.foldl max h := by
  induction t generalizing h with
  | nil => exact ⟨le_rfl, by simp⟩
  | cons a t2 ih =>
      have hih := ih (max h a)
      refine ⟨le_trans (le_max_left h a) hih.1, fun x hx => ?_⟩
      rcases List.mem_cons.mp hx with rfl | hx2
      · exact le_trans (le_max_right h x) hih.1
      · exact hih.2 x hx2

/-- A fold of `min` is dominated by its seed and every folded element. -/
theorem foldl_min_le (t : List ℚ) (h : ℚ) :
    t.foldl min h ≤ h ∧ ∀ x ∈ t, t.foldl min h ≤ x := by
  induction t generalizing h with
  | nil => exact ⟨le_rfl, by simp⟩
  | cons a t2 ih =>
      have hih := ih (min h a)
      refine ⟨le_trans hih.1 (min_le_left h a), fun x hx => ?_⟩
      rcases List.mem_cons.mp hx with rfl | hx2
      · exact le_trans hih.1 (min_le_right h x)
      · exact hih.2 x hx2

/-- Every member of a list is at most its `listMax`. -/
theorem le_listMax (l : List ℚ) (x : ℚ) (hx : x ∈ l) : x ≤ listMax l := by
  cases l with
  | nil => cases hx
  | cons h t =>
      rcases List.mem_cons.mp hx with rfl | hx2
      · exact (le_foldl_max t x).1
      · exact (le_foldl_max t h).2 x hx2

/-- The value `listMin` is at most every member of a list. -/
theorem listMin_le (l : List ℚ) (x : ℚ) (hx : x ∈ l) : listMin l ≤ x := by
  cases l with
  | nil => cases hx
  | cons h t =>
      rcases List.mem_cons.mp hx with rfl | hx2
      · exact (foldl_min_le t x).1
      · exact (foldl_min_le t h).2 x hx2

/-- A fold of `max` stays below a bound dominating the seed and all
elements. -/
theorem foldl_max_le_of_le (t : List ℚ) (b : ℚ) :
    ∀ h : ℚ, h ≤ b → (∀ x ∈ t, x ≤ b) → t.foldl max h ≤ b := by
  induction t with
  | nil => exact fun h hh _ => hh
  | cons a t2 ih =>
      intro h hh hb
      show t2.foldl max (max h a) ≤ b
      exact ih (max h a) (max_le hh (hb a (List.mem_cons_self a t2)))
        (fun x hx => hb x (List.mem_cons.mpr (Or.inr hx)))

/-- A fold of `min` stays above a bound dominated by the seed and all
elements. -/
theorem le_foldl_min_of_le (t : List ℚ) (b : ℚ) :
    ∀ h : ℚ, b ≤ h → (∀ x ∈ t, b ≤ x) → b ≤ t.foldl min h := by
  induction t with
  | nil => exact fun h hh _ => hh
  | cons a t2 ih =>
      intro h hh hb
      show b ≤ t2.foldl min (min h a)
      exact ih (min h a) (le_min hh (hb a (List.mem_cons_self a t2)))
        (fun x hx => hb x (List.mem_cons.mpr (Or.inr hx)))

/-- An upper bound of a nonempty list bounds its `listMax`. -/
theorem listMax_le (l : List ℚ) (b : ℚ) (hb : ∀ x ∈ l, x ≤ b)
    (hne : l ≠ []) : listMax l ≤ b := by
  cases l with
  | nil => exact absurd rfl hne
  | cons h t =>
      exact foldl_max_le_of_le t b h (hb h (List.mem_cons_self h t))
        (fun x hx => hb x (List.mem_cons.mpr (Or.inr hx)))

/-- A lower bound of a nonempty list bounds its `listMin`. -/
theorem le_listMin (l : List ℚ) (b : ℚ) (hb : ∀ x ∈ l, b ≤ x)
    (hne : l ≠ []) : b ≤ listMin l := by
  cases l with
  | nil => exact absurd rfl hne
  | cons h t =>
      exact le_foldl_min_of_le t b h (hb h (List.mem_cons_self h t))
        (fun x hx => hb x (List.mem_cons.mpr (Or.inr hx)))

/-- Every clipped value is nonnegative. -/
theorem clipRaw_nonneg (o : Option ℚ) : 0 ≤ clipRaw o := by
  cases o with
  | none => exact le_rfl
  | some x => exact le_max_left 0 x

/-- Pairs of a list zipped with its own map relate by the mapped function. -/
theorem mem_zip_map {α β : Type} (g : α → β) (l : List α) :
    ∀ p ∈ l.zip (l.map g), p.2 = g p.1 := by
  induction l with
  | nil => intro p hp; cases hp
  | cons a t ih =>
      intro p hp
      rw [List.map_cons, List.zip_cons_cons] at hp
      rcases List.mem_cons.mp hp with rfl | hp2
      · rfl
      · exact ih p hp2

/-- Each pair of a raw list zipped with its normalized scores consists of a
member of the list and the score of its clipped value. -/
theorem normalize_pair (raws : List (Option ℚ)) (p : Option ℚ × ℚ)
    (hp : p ∈ raws.zip (normalize_roi_score raws)) :
    p.1 ∈ raws ∧
    p.2 = scoreFun (listMax (raws.map clipRaw)) (listMin (raws.map clipRaw))
        (clipRaw p.1) := by
  have h2 : normalize_roi_score raws =
      raws.map (fun o => scoreFun (listMax (raws.map clipRaw))
        (listMin (raws.map clipRaw)) (clipRaw o)) := by
    unfold normalize_roi_score
    rw [List.map_map]
    rfl
  rw [h2] at hp
  obtain ⟨o, s⟩ := p
  exact ⟨(List.of_mem_zip hp).1, mem_zip_map _ raws ⟨o, s⟩ hp⟩

/-- A min-max score lies in [0,1] whenever its argument lies between the
population minimum and maximum and the minimum is nonnegative. -/
theorem scoreFun_mem_unit {M m x : ℚ} (hmx : m ≤ x) (hxM : x ≤ M) :
    0 ≤ scoreFun M m x ∧ scoreFun M m x ≤ 1 := by
  unfold scoreFun
  split
  · split <;> norm_num
  · rename_i hMm
    have hlt : m < M := lt_of_le_of_ne (hmx.trans hxM) (fun h => hMm h.symm)
    constructor
    · exact div_nonneg (sub_nonneg.mpr hmx) (sub_nonneg.mpr hlt.le)
    · rw [div_le_one (sub_pos.mpr hlt)]
      linarith

/-- The min-max score is monotone in its argument. -/
theorem scoreFun_mono {M m : ℚ} (hmM : m ≤ M) {x y : ℚ} (hxy : x ≤ y) :
    scoreFun M m x ≤ scoreFun M m y := by
  unfold scoreFun
  split
  · exact le_rfl
  · rename_i hMm
    have hlt : (0:ℚ) < M - m :=
      sub_pos.mpr (lt_of_le_of_ne hmM (fun h => hMm h.symm))
    gcongr

/-- The min-max score of the population minimum 0 is 0. -/
theorem scoreFun_zero (M : ℚ) : scoreFun M 0 0 = 0 := by
  unfold scoreFun
  split
  · rename_i h
    subst h
    norm_num
  · simp

/-- C4 (amended): for every finite population, the min-max ROI scores lie in
[0,1] and are non-decreasing in the raw value; negative and NaN raw values
score 0; an element achieving the population maximum scores exactly 1 when
that maximum is positive; and a constant population scores all 1 when the
common value is positive and all 0 otherwise, never dividing by zero (the
scorer is a total function). -/
theorem c4_score_normalization :
    (∀ raws : List (Option ℚ), ∀ s ∈ normalize_roi_score raws,
        0 ≤ s ∧ s ≤ 1) ∧
    (∀ (raws : List (Option ℚ)) (p p2 : Option ℚ × ℚ),
        p ∈ raws.zip (normalize_roi_score raws) →
        p2 ∈ raws.zip (normalize_roi_score raws) →
        ∀ x y : ℚ, p.1 = some x → p2.1 = some y → x ≤ y → p.2 ≤ p2.2) ∧
    (∀ (raws : List (Option ℚ)) (p : Option ℚ × ℚ),
        p ∈ raws.zip (normalize_roi_score raws) →
        ∀ x : ℚ, p.1 = some x → x < 0 → p.2 = 0) ∧
    (∀ (raws : List (Option ℚ)) (p : Option ℚ × ℚ),
        p ∈ raws.zip (normalize_roi_score raws) → p.1 = none → p.2 = 0) ∧
    (∀ (raws : List (Option ℚ)) (p : Option ℚ × ℚ),
        p ∈ raws.zip (normalize_roi_score raws) →
        ∀ x : ℚ, p.1 = some x → 0 < x → (∀ o ∈ raws, clipRaw o ≤ x) →
        p.2 = 1) ∧
    (∀ (raws : List (Option ℚ)) (v : ℚ), raws ≠ [] →
        (∀ o ∈ raws, o = some v) →
        ((0 < v → ∀ s ∈ normalize_roi_score raws, s = 1) ∧
         (v ≤ 0 → ∀ s ∈ normalize_roi_score raws, s = 0))) := by
  refine ⟨fun raws s hs => ?_, fun raws p p2 hp hp2 x y hx hy hxy => ?_,
    fun raws p hp x hx hneg => ?_, fun raws p hp hnan => ?_,
    fun raws p hp x hx hpos hmax => ?_, fun raws v hne hconst => ?_⟩
  · have h2 : normalize_roi_score raws =
        raws.map (fun o => scoreFun (listMax (raws.map clipRaw))
          (listMin (raws.map clipRaw)) (clipRaw o)) := by
      unfold normalize_roi_score
      rw [List.map_map]
      rfl
    rw [h2] at hs
    obtain ⟨o, ho, rfl⟩ := List.mem_map.mp hs
    have hmem : clipRaw o ∈ raws.map clipRaw := List.mem_map_of_mem clipRaw ho
    exact scoreFun_mem_unit (listMin_le _ _ hmem) (le_listMax _ _ hmem)
  · obtain ⟨hp1, hps⟩ := normalize_pair raws p hp
    obtain ⟨hp21, hp2s⟩ := normalize_pair raws p2 hp2
    rw [hps, hp2s, hx, hy]
    have hmem : clipRaw p.1 ∈ raws.map clipRaw := List.mem_map_of_mem clipRaw hp1
    have hmM : listMin (raws.map clipRaw) ≤ listMax (raws.map clipRaw) :=
      le_trans (listMin_le _ _ hmem) (le_listMax _ _ hmem)
    exact scoreFun_mono hmM
      (show clipRaw (some x) ≤ clipRaw (some y) from max_le_max le_rfl hxy)
  · obtain ⟨hp1, hps⟩ := normalize_pair raws p hp
    have hclip : clipRaw p.1 = 0 := by
      rw [hx]
      simp [clipRaw]
      exact hneg.le
    have hmem : clipRaw p.1 ∈ raws.map clipRaw := List.mem_map_of_mem clipRaw hp1
    have hm0 : listMin (raws.map clipRaw) = 0 := by
      refine le_antisymm (hclip ▸ listMin_le _ _ hmem) ?_
      refine le_listMin _ _ (fun z hz => ?_) (List.ne_nil_of_mem hmem)
      obtain ⟨o, -, rfl⟩ := List.mem_map.mp hz
      exact clipRaw_nonneg o
    rw [hps, hclip, hm0]
    exact scoreFun_zero _
  · obtain ⟨hp1, hps⟩ := normalize_pair raws p hp
    have hclip : clipRaw p.1 = 0 := by
      rw [hnan]
      rfl
    have hmem : clipRaw p.1 ∈ raws.map clipRaw := List.mem_map_of_mem clipRaw hp1
    have hm0 : listMin (raws.map clipRaw) = 0 := by
      refine le_antisymm (hclip ▸ listMin_le _ _ hmem) ?_
      refine le_listMin _ _ (fun z hz => ?_) (List.ne_nil_of_mem hmem)
      obtain ⟨o, -, rfl⟩ := List.mem_map.mp hz
      exact clipRaw_nonneg o
    rw [hps, hclip, hm0]
    exact scoreFun_zero _
  · obtain ⟨hp1, hps⟩ := normalize_pair raws p hp
    have hclip : clipRaw p.1 = x := by
      rw [hx]
      simp [clipRaw]
      exact hpos.le
    have hmem : clipRaw p.1 ∈ raws.map clipRaw := List.mem_map_of_mem clipRaw hp1
    have hM : listMax (raws.map clipRaw) = x := by
      refine le_antisymm ?_ (hclip ▸ le_listMax _ _ hmem)
      refine listMax_le _ _ (fun z hz => ?_) (List.ne_nil_of_mem hmem)
      obtain ⟨o, ho, rfl⟩ := List.mem_map.mp hz
      exact hmax o ho
    rw [hps, hclip, hM]
    unfold scoreFun
    split
    · rename_i h
      simp [hpos]
    · rename_i h
      exact div_self (sub_ne_zero.mpr h)
  · have h2 : normalize_roi_score raws =
        raws.map (fun o => scoreFun (listMax (raws.map clipRaw))
          (listMin (raws.map clipRaw)) (clipRaw o)) := by
      unfold normalize_roi_score
      rw [List.map_map]
      rfl
    have hcv : ∀ z ∈ raws.map clipRaw, z = max 0 v := by
      intro z hz
      obtain ⟨o, ho, rfl⟩ := List.mem_map.mp hz
      rw [hconst o ho]
      rfl
    have hnem : raws.map clipRaw ≠ [] := by
      cases raws with
      | nil => exact absurd rfl hne
      | cons a t => simp
    have hM : listMax (raws.map clipRaw) = max 0 v := by
      refine le_antisymm (listMax_le _ _ (fun z hz => (hcv z hz).le) hnem) ?_
      obtain ⟨z, hz⟩ := List.exists_mem_of_ne_nil _ hnem
      exact (hcv z hz) ▸ le_listMax _ _ hz
    have hm : listMin (raws.map clipRaw) = max 0 v := by
      refine le_antisymm ?_ (le_listMin _ _ (fun z hz => (hcv z hz).ge) hnem)
      obtain ⟨z, hz⟩ := List.exists_mem_of_ne_nil _ hnem
      exact (hcv z hz) ▸ listMin_le _ _ hz
    constructor
    · intro hv s hs
      rw [h2] at hs
      obtain ⟨o, ho, rfl⟩ := List.mem_map.mp hs
      rw [hM, hm]
      unfold scoreFun
      rw [if_pos rfl, if_pos (lt_max_of_lt_right hv)]
    · intro hv s hs
      rw [h2] at hs
      obtain ⟨o, ho, rfl⟩ := List.mem_map.mp hs
      rw [hM, hm]
      unfold scoreFun
      rw [if_pos rfl, if_neg (by simp [max_eq_left hv, lt_irrefl])]

/-- Witness for C4: the population [1] yields the score 1, which lies in
[0,1]. -/
theorem c4_score_normalization_witness : (0:ℚ) ≤ 1 ∧ (1:ℚ) ≤ 1 :=
  c4_score_normalization.1 [some 1] 1
    (by norm_num [normalize_roi_score, clipRaw, listMax, listMin, scoreFun])

/-- Counterexample for C4 as stated: in the all-negative population
[−2, −1] every score is 0, so the element achieving the population maximum
(−1) receives score 0, not 1.0. -/
theorem c4_max_score_counterexample :
    normalize_roi_score [some (-2), some (-1)] = [0, 0] ∧
    ((-2:ℚ) < -1) ∧ ((0:ℚ) ≠ 1) := by
  refine ⟨?_, by norm_num, by norm_num⟩
  norm_num [normalize_roi_score, clipRaw, listMax, listMin, scoreFun,
    List.foldl]

/-- The Gaussian kernel is continuous. -/
theorem continuous_gaussKernel :
    Continuous fun t : ℝ => Real.exp (-(1 / 2) * t ^ 2) :=
  Real.continuous_exp.comp (by continuity)

/-- The Gaussian kernel is interval integrable. -/
theorem gaussKernel_intervalIntegrable (a b : ℝ) :
    IntervalIntegrable (fun t : ℝ => Real.exp (-(1 / 2) * t ^ 2))
      MeasureTheory.volume a b :=
  continuous_gaussKernel.intervalIntegrable a b

/-- The Gaussian integral from 0 is nonnegative for a nonnegative bound. -/
theorem gaussInt_nonneg (x : ℝ) (hx : 0 ≤ x) :
    0 ≤ ∫ t in (0:ℝ)..x, Real.exp (-(1 / 2) * t ^ 2) :=
  intervalIntegral.integral_nonneg hx (fun _ _ => (Real.exp_pos _).le)

/-- The Gaussian integral from 0 is positive for a positive bound. -/
theorem gaussInt_pos (x : ℝ) (hx : 0 < x) :
    0 < ∫ t in (0:ℝ)..x, Real.exp (-(1 / 2) * t ^ 2) :=
  intervalIntegral.intervalIntegral_pos_of_pos
    (gaussKernel_intervalIntegrable 0 x) (fun _ => Real.exp_pos _) hx

/-- The Gaussian integral from 0 to x is at most x. -/
theorem gaussInt_le (x : ℝ) (hx : 0 ≤ x) :
    (∫ t in (0:ℝ)..x, Real.exp (-(1 / 2) * t ^ 2)) ≤ x := by
  have h1 : (∫ t in (0:ℝ)..x, Real.exp (-(1 / 2) * t ^ 2)) ≤
      ∫ t in (0:ℝ)..x, (1:ℝ) := by
    refine intervalIntegral.integral_mono_on hx
      (gaussKernel_intervalIntegrable 0 x) intervalIntegrable_const ?_
    intro t ht
    rw [Real.exp_le_one_iff]
    nlinarith [sq_nonneg t]
  have h2 : (∫ t in (0:ℝ)..x, (1:ℝ)) = x := by simp
  linarith

/-- The half-line Gaussian integral equals √(2π)/2. -/
theorem gaussInt_Ioi :
    (∫ t in Set.Ioi (0:ℝ), Real.exp (-(1 / 2) * t ^ 2)) =
      Real.sqrt (2 * Real.pi) / 2 := by
  have h := integral_gaussian_Ioi (1 / 2)
  rw [show Real.pi / (1 / 2 : ℝ) = 2 * Real.pi by ring] at h
  exact h

/-- Every initial segment of the Gaussian integral stays strictly below the
half-line total. -/
theorem gaussInt_lt (x : ℝ) :
    (∫ t in (0:ℝ)..x, Real.exp (-(1 / 2) * t ^ 2)) <
      Real.sqrt (2 * Real.pi) / 2 := by
  have hs : 0 < Real.sqrt (2 * Real.pi) :=
    Real.sqrt_pos.mpr (by positivity)
  rcases le_or_lt x 0 with hx | hx
  · have h0 : (∫ t in (0:ℝ)..x, Real.exp (-(1 / 2) * t ^ 2)) ≤ 0 := by
      rw [intervalIntegral.integral_symm]
      have hnn : 0 ≤ ∫ t in x..(0:ℝ), Real.exp (-(1 / 2) * t ^ 2) :=
        intervalIntegral.integral_nonneg hx (fun _ _ => (Real.exp_pos _).le)
      linarith
    linarith
  · have hint : MeasureTheory.IntegrableOn
        (fun t : ℝ => Real.exp (-(1 / 2) * t ^ 2)) (Set.Ioi 0)
        MeasureTheory.volume :=
      (integrable_exp_neg_mul_sq (by norm_num : (0:ℝ) < 1 / 2)).integrableOn
    have hioc : MeasureTheory.IntegrableOn
        (fun t : ℝ => Real.exp (-(1 / 2) * t ^ 2)) (Set.Ioc 0 x)
        MeasureTheory.volume :=
      (gaussKernel_intervalIntegrable 0 x).1
    have hioi : MeasureTheory.IntegrableOn
        (fun t : ℝ => Real.exp (-(1 / 2) * t ^ 2)) (Set.Ioi x)
        MeasureTheory.volume :=
      hint.mono_set (Set.Ioi_subset_Ioi hx.le)
    have hsplit : (∫ t in Set.Ioi (0:ℝ), Real.exp (-(1 / 2) * t ^ 2)) =
        (∫ t in Set.Ioc (0:ℝ) x, Real.exp (-(1 / 2) * t ^ 2)) +
          ∫ t in Set.Ioi x, Real.exp (-(1 / 2) * t ^ 2) := by
      rw [← MeasureTheory.setIntegral_union Set.Ioc_disjoint_Ioi_same
        measurableSet_Ioi hioc hioi, Set.Ioc_union_Ioi_eq_Ioi hx.le]
    have htail : 0 < ∫ t in Set.Ioi x, Real.exp (-(1 / 2) * t ^ 2) := by
      have h1 : 0 < ∫ t in x..(x + 1), Real.exp (-(1 / 2) * t ^ 2) :=
        intervalIntegral.intervalIntegral_pos_of_pos
          (gaussKernel_intervalIntegrable x (x + 1)) (fun _ => Real.exp_pos _)
          (by linarith)
      have h2 : (∫ t in x..(x + 1), Real.exp (-(1 / 2) * t ^ 2)) =
          ∫ t in Set.Ioc x (x + 1), Real.exp (-(1 / 2) * t ^ 2) :=
        intervalIntegral.integral_of_le (by linarith)
      have h3 : (∫ t in Set.Ioc x (x + 1), Real.exp (-(1 / 2) * t ^ 2)) ≤
          ∫ t in Set.Ioi x, Real.exp (-(1 / 2) * t ^ 2) := by
        refine MeasureTheory.setIntegral_mono_set hioi ?_ ?_
        · exact Filter.Eventually.of_forall (fun _ => (Real.exp_pos _).le)
        · exact HasSubset.Subset.eventuallyLE Set.Ioc_subset_Ioi_self
      linarith
    have hx0 : (∫ t in (0:ℝ)..x, Real.exp (-(1 / 2) * t ^ 2)) =
        ∫ t in Set.Ioc (0:ℝ) x, Real.exp (-(1 / 2) * t ^ 2) :=
      intervalIntegral.integral_of_le hx.le
    have htot := gaussInt_Ioi
    rw [hx0]
    linarith

/-- The normal CDF is always strictly below 1. -/
theorem normCdf_lt_one (x : ℝ) : normCdf x < 1 := by
  unfold normCdf
  have hs : 0 < Real.sqrt (2 * Real.pi) := Real.sqrt_pos.mpr (by positivity)
  have h := gaussInt_lt x
  have hdiv : (∫ t in (0:ℝ)..x, Real.exp (-(1 / 2) * t ^ 2)) /
      Real.sqrt (2 * Real.pi) < 1 / 2 := by
    rw [div_lt_iff₀ hs]
    linarith
  linarith

/-- The normal CDF exceeds 1/2 at every positive argument. -/
theorem half_lt_normCdf (x : ℝ) (hx : 0 < x) : 1 / 2 < normCdf x := by
  unfold normCdf
  have hs : 0 < Real.sqrt (2 * Real.pi) := Real.sqrt_pos.mpr (by positivity)
  have h := gaussInt_pos x hx
  have hdiv : 0 < (∫ t in (0:ℝ)..x, Real.exp (-(1 / 2) * t ^ 2)) /
      Real.sqrt (2 * Real.pi) := div_pos h hs
  linarith

/-- The square root of 2π is at least 5/2. -/
theorem sqrt_two_pi_ge : (5 / 2 : ℝ) ≤ Real.sqrt (2 * Real.pi) := by
  rw [show (5 / 2 : ℝ) = Real.sqrt ((5 / 2) ^ 2) from
    (Real.sqrt_sq (by norm_num)).symm]
  apply Real.sqrt_le_sqrt
  nlinarith [Real.pi_gt_d6]

/-- A linear upper bound on the normal CDF near 0. -/
theorem normCdf_le (x : ℝ) (hx : 0 ≤ x) : normCdf x ≤ 1 / 2 + 2 / 5 * x := by
  unfold normCdf
  have hs : 0 < Real.sqrt (2 * Real.pi) :=
    lt_of_lt_of_le (by norm_num) sqrt_two_pi_ge
  have hI := gaussInt_le x hx
  have hInn := gaussInt_nonneg x hx
  have hdiv : (∫ t in (0:ℝ)..x, Real.exp (-(1 / 2) * t ^ 2)) /
      Real.sqrt (2 * Real.pi) ≤ 2 / 5 * x := by
    rw [div_le_iff₀ hs]
    nlinarith [mul_le_mul_of_nonneg_left sqrt_two_pi_ge
      (by positivity : (0:ℝ) ≤ 2 / 5 * x)]
  linarith

/-- The at-the-money d1 of the scenario reduces to (57/200)·√(30/365). -/
theorem atm_d1_eq :
    (Real.log ((100:ℝ) / 100) + (0.05 - 0.013 + (1 / 5) ^ 2 / 2) * (6 / 73)) /
        (1 / 5 * Real.sqrt (6 / 73)) = 57 / 200 * Real.sqrt (6 / 73) := by
  have hms : Real.sqrt (6 / 73) * Real.sqrt (6 / 73) = 6 / 73 :=
    Real.mul_self_sqrt (by norm_num)
  have hne : Real.sqrt (6 / 73) ≠ 0 :=
    ne_of_gt (Real.sqrt_pos.mpr (by norm_num))
  rw [show Real.log ((100:ℝ) / 100) = 0 by norm_num, ← hms]
  field_simp
  ring_nf
  rw [Real.sq_sqrt (by norm_num : (0:ℝ) ≤ 73),
    Real.sq_sqrt (by norm_num : (0:ℝ) ≤ 6)]
  norm_num

/-- C7: `estimate_delta` returns 0 on degenerate inputs (nonpositive dte, iv
or underlying price); the at-the-money call scenario (strike 100, underlying
100, dte 30, iv 0.20) lies strictly in (0.45, 0.55); and the put delta is
strictly negative on every non-degenerate input. -/
theorem c7_estimate_delta :
    (∀ (strike underlying_price : ℝ) (dte : ℤ) (iv : ℝ) (ty : OptType),
        dte ≤ 0 ∨ iv ≤ 0 ∨ underlying_price ≤ 0 →
        estimate_delta strike underlying_price dte iv ty = 0) ∧
    (9 / 20 < estimate_delta 100 100 30 (1 / 5) OptType.call ∧
      estimate_delta 100 100 30 (1 / 5) OptType.call < 11 / 20) ∧
    (∀ (strike underlying_price : ℝ) (dte : ℤ) (iv : ℝ),
        0 < dte → 0 < iv → 0 < underlying_price →
        estimate_delta strike underlying_price dte iv OptType.put < 0) := by
  have hdelta : estimate_delta 100 100 30 (1 / 5) OptType.call =
      Real.exp (-DIVIDEND_YIELD * (6 / 73)) *
        normCdf (57 / 200 * Real.sqrt (6 / 73)) := by
    have hcond : ¬((30:ℤ) ≤ 0 ∨ (1 / 5 : ℝ) ≤ 0 ∨ (100:ℝ) ≤ 0) := by
      push_neg
      refine ⟨by norm_num, by norm_num, by norm_num⟩
    simp only [estimate_delta]
    rw [if_neg hcond]
    show Real.exp (-DIVIDEND_YIELD * (((30:ℤ):ℝ) / 365)) *
        normCdf (bs_d1 100 100 RISK_FREE_RATE DIVIDEND_YIELD (1 / 5)
          (((30:ℤ):ℝ) / 365)) = _
    have hT : (((30:ℤ):ℝ) / 365) = 6 / 73 := by norm_num
    rw [hT]
    unfold bs_d1 RISK_FREE_RATE DIVIDEND_YIELD
    rw [atm_d1_eq]
  have hs_pos : 0 < Real.sqrt (6 / 73) := Real.sqrt_pos.mpr (by norm_num)
  have hs_ub : Real.sqrt (6 / 73) < 2867 / 10000 := by
    rw [Real.sqrt_lt' (by norm_num)]
    norm_num
  have hd1_pos : 0 < 57 / 200 * Real.sqrt (6 / 73) := by positivity
  have hPhi_ub : normCdf (57 / 200 * Real.sqrt (6 / 73)) < 533 / 1000 := by
    have h1 := normCdf_le (57 / 200 * Real.sqrt (6 / 73)) hd1_pos.le
    nlinarith
  have hPhi_lb : 1 / 2 < normCdf (57 / 200 * Real.sqrt (6 / 73)) :=
    half_lt_normCdf _ hd1_pos
  have hq : DIVIDEND_YIELD = (0.013 : ℝ) := rfl
  have he_ub : Real.exp (-DIVIDEND_YIELD * (6 / 73)) ≤ 1 := by
    rw [Real.exp_le_one_iff, hq]
    norm_num
  have he_lb : (9987 / 10000 : ℝ) ≤ Real.exp (-DIVIDEND_YIELD * (6 / 73)) := by
    have h1 := Real.add_one_le_exp (-DIVIDEND_YIELD * (6 / 73))
    rw [hq] at h1 ⊢
    norm_num at h1 ⊢
    linarith
  refine ⟨fun strike S dte iv ty h => ?_, ⟨?_, ?_⟩,
    fun strike S dte iv h1 h2 h3 => ?_⟩
  · unfold estimate_delta
    rw [if_pos h]
  · rw [hdelta]
    nlinarith [Real.exp_pos (-DIVIDEND_YIELD * (6 / 73))]
  · rw [hdelta]
    nlinarith [Real.exp_pos (-DIVIDEND_YIELD * (6 / 73))]
  · have hcond : ¬(dte ≤ 0 ∨ iv ≤ 0 ∨ S ≤ 0) := by
      push_neg
      exact ⟨h1, h2, h3⟩
    simp only [estimate_delta]
    rw [if_neg hcond]
    show Real.exp (-DIVIDEND_YIELD * ((dte:ℝ) / 365)) *
        (normCdf (bs_d1 S strike RISK_FREE_RATE DIVIDEND_YIELD iv
          ((dte:ℝ) / 365)) - 1) < 0
    apply mul_neg_of_pos_of_neg (Real.exp_pos _)
    have := normCdf_lt_one (bs_d1 S strike RISK_FREE_RATE DIVIDEND_YIELD iv
      ((dte:ℝ) / 365))
    linarith

/-- Witness for C7: at dte = 0 the estimated delta is 0. -/
theorem c7_estimate_delta_witness :
    estimate_delta 100 100 0 (1 / 5) OptType.call = 0 :=
  c7_estimate_delta.1 100 100 0 (1 / 5) OptType.call (Or.inl le_rfl)

/-- C8: `calculate_greeks` returns all-`None` Greeks exactly when dte ≤ 0,
iv ≤ 0, underlying_price ≤ 0 or strike ≤ 0 (and, being a total function,
never raises); an iv of at least 1 (and below 100 after division) is treated
as a percentage and divided by 100; otherwise every returned Greek is a
defined real value rounded to 4 decimal places, so no NaN reaches the
caller. -/
theorem c8_calculate_greeks :
    (∀ (ty : OptType) (strike underlying_price : ℝ) (dte : ℤ) (iv r q : ℝ),
        calculate_greeks ty strike underlying_price dte iv r q =
            allNoneGreeks ↔
          (dte ≤ 0 ∨ iv ≤ 0 ∨ underlying_price ≤ 0 ∨ strike ≤ 0)) ∧
    (∀ (ty : OptType) (strike underlying_price : ℝ) (dte : ℤ) (iv r q : ℝ),
        1 ≤ iv → iv < 100 →
        calculate_greeks ty strike underlying_price dte iv r q =
          calculate_greeks ty strike underlying_price dte (iv / 100) r q) ∧
    (∀ (ty : OptType) (strike underlying_price : ℝ) (dte : ℤ) (iv r q : ℝ),
        ¬(dte ≤ 0 ∨ iv ≤ 0 ∨ underlying_price ≤ 0 ∨ strike ≤ 0) →
        ∃ d g th v rh,
          calculate_greeks ty strike underlying_price dte iv r q =
            ⟨some (round4 d), some (round4 g), some (round4 th),
              some (round4 v), some (round4 rh)⟩) := by
  refine ⟨fun ty strike S dte iv r q => ?_, fun ty strike S dte iv r q h1 h2 => ?_,
    fun ty strike S dte iv r q h => ?_⟩
  · unfold calculate_greeks
    by_cases h : dte ≤ 0 ∨ iv ≤ 0 ∨ S ≤ 0 ∨ strike ≤ 0
    · rw [if_pos h]
      simp [h]
    · rw [if_neg h]
      constructor
      · intro hgc
        exact absurd hgc (by simp [greeksCore, allNoneGreeks])
      · intro hc
        exact absurd hc h
  · have harr : ¬ iv ≤ 0 := by linarith
    have harr2 : ¬ iv / 100 ≤ 0 := by
      push_neg
      linarith
    by_cases hrest : dte ≤ 0 ∨ S ≤ 0 ∨ strike ≤ 0
    · unfold calculate_greeks
      rw [if_pos (by tauto), if_pos (by tauto)]
    · push_neg at hrest
      have hcl : ¬(dte ≤ 0 ∨ iv ≤ 0 ∨ S ≤ 0 ∨ strike ≤ 0) := by
        push_neg
        exact ⟨hrest.1, by linarith, hrest.2.1, hrest.2.2⟩
      have hcr : ¬(dte ≤ 0 ∨ iv / 100 ≤ 0 ∨ S ≤ 0 ∨ strike ≤ 0) := by
        push_neg
        exact ⟨hrest.1, by linarith, hrest.2.1, hrest.2.2⟩
      have hL : calculate_greeks ty strike S dte iv r q =
          greeksCore ty strike S dte (iv / 100) r q := by
        unfold calculate_greeks
        rw [if_neg hcl, if_neg (not_lt.mpr h1)]
      have hR : calculate_greeks ty strike S dte (iv / 100) r q =
          greeksCore ty strike S dte (iv / 100) r q := by
        unfold calculate_greeks
        rw [if_neg hcr, if_pos (show iv / 100 < 1 by linarith)]
      rw [hL, hR]
  · unfold calculate_greeks
    rw [if_neg h]
    exact ⟨_, _, _, _, _, rfl⟩

/-- Witness for C8: an iv of 20 is treated as a 20% volatility. -/
theorem c8_calculate_greeks_witness :
    calculate_greeks OptType.call 100 100 30 20 (0.05) (0.013) =
      calculate_greeks OptType.call 100 100 30 (20 / 100) (0.05) (0.013) :=
  c8_calculate_greeks.2.1 OptType.call 100 100 30 20 (0.05) (0.013)
    (by norm_num) (by norm_num)

end OptChain
